import Mathlib

/-!
Verification of the file-manager plugin's core engine
(`src/file_manager.ts`, `src/conflict.ts`, `src/main.ts`).

The TypeScript source is shallowly embedded below:
* paths are `String`s with `/` as directory separator, exactly as in the
  source (`DIR_SEP`, `EXT_SEP`);
* the vault / file-explorer item map (`fileItems`, `vault.exists`) is a
  finite association list from path to entry kind;
* the asynchronous operations (`vault.copy`, `vault.createFolder`,
  `fileManager.renameFile`, `fileManager.trashFile`) are modelled by a
  state-passing interpreter that additionally records a trace of effects,
  so that theorems can speak about *which* mutations were performed;
* the interactive/policy resolution source
  (`plugin.getFileConflictResolutionMethod`) is an oracle
  `Nat → Res × Bool` consumed at an increasing index, one consultation
  per call; every consultation is also recorded in the trace;
* `genNonExistingPath`'s unbounded `for` loop is given explicit fuel and
  returns `none` when the fuel runs out (the JS loop would still be
  running), so all definitions stay executable.

JavaScript `string.split`, `lastIndexOf`, `slice` are modelled on
`List Char` (the paths involved are plain ASCII, where JS UTF-16 indices
and characters coincide).
-/

namespace FileMgrSpec

/-- `DIR_SEP` from `file_manager.ts`. -/
def DIR_SEP : String := "/"

/-- Directory separator as a character (the one-character string `DIR_SEP`). -/
def dirSepChar : Char := '/'

/-- `EXT_SEP` (".") from `file_manager.ts`, as a character. -/
def extSepChar : Char := '.'

/-- JS `path.lastIndexOf(c)`: index of the last occurrence of `c`, `-1` if
absent. -/
def lastIdxOf (s : String) (c : Char) : Int :=
  match s.toList.reverse.findIdx? (fun x => x == c) with
  | none => -1
  | some j => (s.toList.length : Int) - 1 - (j : Int)

/-- `addSuffixBeforeExtension` from `file_manager.ts`: if the path has a
dot after its last slash, insert the suffix before the last dot, else
append the suffix.  Mirrors
`path.slice(0, dotIndex) + suffix + "." + path.slice(dotIndex + 1)`. -/
def addSuffixBeforeExtension (path suffix : String) : String :=
  let slashIndex := lastIdxOf path dirSepChar
  let dotIndex := lastIdxOf path extSepChar
  if slashIndex < dotIndex then
    String.mk (path.toList.take dotIndex.toNat) ++ suffix ++ "." ++
      String.mk (path.toList.drop (dotIndex.toNat + 1))
  else
    path ++ suffix

/-- Helper for JS `string.split(sep)` with a one-character separator:
splits the character list at every occurrence of `c`; `acc` holds the
(reversed) characters of the current field. -/
def splitCharAux (c : Char) : List Char → List Char → List (List Char)
  | [], acc => [acc.reverse]
  | x :: xs, acc =>
    if x == c then acc.reverse :: splitCharAux c xs []
    else splitCharAux c xs (x :: acc)

/-- `path.split(DIR_SEP)` from the source: the `/`-separated segments of a
path. -/
def pathSegs (p : String) : List String :=
  (splitCharAux dirSepChar p.toList []).map String.mk

/-- `path.split(DIR_SEP).length`, the depth measure used by
`pruneDescendantsPaths`. -/
def pathDepth (p : String) : Nat := (pathSegs p).length

/-- JS `array.join(sep)`. -/
def joinSegs (sep : String) : List String → String
  | [] => ""
  | [x] => x
  | x :: y :: xs => x ++ sep ++ joinSegs sep (y :: xs)

/-- `getAllAncestors` from `file_manager.ts`: for each `i` from `1` to
`parts.length - 1`, the join of the first `i` segments. These are exactly
the strict path-prefixes of `path` with respect to `/`. -/
def getAllAncestors (p : String) : List String :=
  (List.range (pathDepth p - 1)).map (fun i => joinSegs DIR_SEP ((pathSegs p).take (i + 1)))

/-- The `i`-th collision candidate tried by `genNonExistingPath`:
`addSuffixBeforeExtension(path, ` ${i}`)` when `dealWithExt`, else
`` `${path} ${i}` ``. -/
def candidate (path : String) (dealWithExt : Bool) (i : Nat) : String :=
  if dealWithExt then addSuffixBeforeExtension path (" " ++ toString i)
  else path ++ " " ++ toString i

/-- The loop of `genNonExistingPath`: while `newPath` exists, replace it by
the candidate built from the *original* `path` and the counter `i`, then
increment `i`.  `fuel` bounds the number of iterations; `none` means the
JS loop would still be running. -/
def genAux (existsp : String → Bool) (path : String) (dealWithExt : Bool) :
    Nat → String → Nat → Option String
  | 0, newPath, _ => if existsp newPath then none else some newPath
  | fuel + 1, newPath, i =>
    if existsp newPath then
      genAux existsp path dealWithExt fuel (candidate path dealWithExt i) (i + 1)
    else some newPath

/-- `genNonExistingPath` from `file_manager.ts`, with the file-item map
abstracted into the existence predicate `existsp`. -/
def genNonExistingPath (existsp : String → Bool) (path : String)
    (dealWithExt : Bool) (fuel : Nat) : Option String :=
  genAux existsp path dealWithExt fuel path 1

/-- One step of the stable depth sort performed by
`paths.sort((a, b) => a.split(DIR_SEP).length - b.split(DIR_SEP).length)`:
insert `x` after every element of no greater depth. -/
def insertPathByDepth (x : String) : List String → List String
  | [] => [x]
  | y :: ys =>
    if pathDepth y ≤ pathDepth x then y :: insertPathByDepth x ys
    else x :: y :: ys

/-- The stable sort of the input paths by depth. -/
def sortPathsByDepth (paths : List String) : List String :=
  paths.foldl (fun acc p => insertPathByDepth p acc) []

/-- First-occurrence deduplication; models grouping the sorted paths into
per-depth JS `Set`s (a duplicated path always lands in the same depth
bucket, so the buckets concatenated in depth order are exactly the sorted
list with later duplicates dropped). -/
def dedupKeepFirst : List String → List String → List String
  | [], _ => []
  | x :: xs, seen =>
    if x ∈ seen then dedupKeepFirst xs seen
    else x :: dedupKeepFirst xs (seen ++ [x])

/-- `depthMap.get(d)?.has(a)`: some input path of depth `d` equals `a`. -/
def depthHas (paths : List String) (d : Nat) (a : String) : Bool :=
  paths.any (fun q => pathDepth q == d && q == a)

/-- The keep condition of `pruneDescendantsPaths`' final loop: depth-1
paths are kept; a deeper path is kept unless some ancestor of it occurs in
the depth map. -/
def keepPath (paths : List String) (p : String) : Bool :=
  pathDepth p == 1 ||
    !((getAllAncestors p).any (fun a => depthHas paths (pathDepth a) a))

/-- `pruneDescendantsPaths` from `file_manager.ts`: sort by depth, group
into per-depth sets, and keep each path only if none of its ancestors is
among the input paths. -/
def pruneDescendantsPaths (paths : List String) : List String :=
  let deduped := dedupKeepFirst (sortPathsByDepth paths) []
  deduped.filter (fun p => keepPath deduped p)

/-- Entry kinds in the vault tree: `TFile` or `TFolder`. -/
inductive EKind
  | file
  | folder
  deriving DecidableEq

/-- The vault / file-explorer state: `fileItems` as an association list
from path to entry kind (`vault.exists` and `fileExplorer.fileItems`
consult the same live tree). -/
structure VaultState where
  entries : List (String × EKind)
  deriving DecidableEq

/-- `vault.exists(p)`, equivalently truthiness of `fileItems[p]`. -/
def vexists (st : VaultState) (p : String) : Bool :=
  st.entries.any (fun e => e.1 == p)

/-- The kind of the entry at `p`
(`fileItems[p].file instanceof TFile / TFolder`). -/
def kindOf (st : VaultState) (p : String) : Option EKind :=
  (st.entries.find? (fun e => e.1 == p)).map Prod.snd

/-- Record a freshly created entry. -/
def addEntry (st : VaultState) (p : String) (k : EKind) : VaultState :=
  ⟨(p, k) :: st.entries⟩

/-- Well-formed vault state: entry paths are unique. -/
def VaultWf (st : VaultState) : Prop := (st.entries.map Prod.fst).Nodup

/-- `FileConflictResolution` from `conflict.ts`. -/
inductive Res
  | SKIP
  | OVERWRITE
  | KEEP
  deriving DecidableEq

/-- Observable effects of the engine: the tree-provider mutations plus a
marker for every consultation of the conflict-resolution source. -/
inductive Effect
  | copyFile (src dest : String)
  | createFolder (dest : String)
  | renameFile (src dest : String)
  | trashFile (dest : String)
  | prompt (dest : String)
  deriving DecidableEq

/-- Effects that create a new entry (`vault.copy` / `vault.createFolder`). -/
def Effect.isCreate : Effect → Bool
  | Effect.copyFile _ _ => true
  | Effect.createFolder _ => true
  | _ => false

/-- The destination path an effect touches. -/
def Effect.target : Effect → String
  | Effect.copyFile _ d => d
  | Effect.createFolder d => d
  | Effect.renameFile _ d => d
  | Effect.trashFile d => d
  | Effect.prompt d => d

/-- `p` is a character-wise initial segment of `s`.  Used for the anchored
regex `new RegExp("^" + src)` and for `path.startsWith`; the paths
involved contain no regex metacharacters. -/
def strStarts (p s : String) : Bool := s.toList.take p.toList.length == p.toList

/-- `s.replace(new RegExp("^" + pre), "")`: drop a leading occurrence of
`pre`. -/
def stripPre (pre s : String) : String :=
  if strStarts pre s then String.mk (s.toList.drop pre.toList.length) else s

/-- `app.fileManager.trashFile(file)`: the entry — and, for a folder, its
whole subtree — disappears from the tree. -/
def trash (st : VaultState) (p : String) : VaultState :=
  ⟨st.entries.filter (fun e => !(e.1 == p || strStarts (p ++ DIR_SEP) e.1))⟩

/-- `app.fileManager.renameFile(file, dest)`: the entry moves to `dest`
and descendants of a folder move with it. -/
def renameEntry (st : VaultState) (src dest : String) : VaultState :=
  ⟨st.entries.map (fun e =>
    if e.1 == src then (dest, e.2)
    else if strStarts (src ++ DIR_SEP) e.1 then (dest ++ stripPre src e.1, e.2)
    else e)⟩

/-- The running context threaded through a batch: the live tree, the
number of consultations of the conflict-resolution source so far, and the
accumulated effect trace. -/
structure Ctx where
  st : VaultState
  promptCount : Nat
  trace : List Effect
  deriving DecidableEq

/-- The triple returned by `_conflictSolver`: resolution applied (or null
for no conflict), the apply-to-all flag, and the final destination the
operation was performed at. -/
structure SolverOut where
  res : Option Res
  applyToAll : Bool
  finalDest : String
  deriving DecidableEq

/-- `plugin.getFileConflictResolutionMethod`: the answer
`(resolution, applyToAll)` returned by the n-th consultation.  It covers
both a fixed configured policy (which always answers
`(policy, true)`) and the interactive `ConflictModal`. -/
abbrev Oracle := Nat → Res × Bool

/-- A caller operation `(src, dest) => Promise<void>`: `none` when the JS
code would throw, otherwise the new state and the effects performed. -/
abbrev OpFn := VaultState → String → String → Option (VaultState × List Effect)

/-- `FileManager._conflictSolver`: if the destination does not exist,
perform the operation and report no conflict; otherwise obtain a
resolution (from `resolve` if provided, else by consulting the oracle)
and apply it — `OVERWRITE` trashes the destination then performs the
operation at it, `KEEP` performs the operation at
`genNonExistingPath(dest)`, `SKIP` does nothing. -/
def conflictSolver (oracle : Oracle) (op : OpFn) (src dest : String)
    (resolve : Option Res) (fuel : Nat) (c : Ctx) : Option (SolverOut × Ctx) :=
  if vexists c.st dest then
    let r0 : Res × Bool × Ctx :=
      match resolve with
      | some r => (r, true, c)
      | none =>
        let a := oracle c.promptCount
        (a.1, a.2, ⟨c.st, c.promptCount + 1, c.trace ++ [Effect.prompt dest]⟩)
    match r0 with
    | (Res.OVERWRITE, a, c1) =>
      match op (trash c1.st dest) src dest with
      | none => none
      | some (st2, effs) =>
        some (⟨some Res.OVERWRITE, a, dest⟩,
          ⟨st2, c1.promptCount, c1.trace ++ Effect.trashFile dest :: effs⟩)
    | (Res.KEEP, a, c1) =>
      match genNonExistingPath (vexists c1.st) dest true fuel with
      | none => none
      | some d2 =>
        match op c1.st src d2 with
        | none => none
        | some (st2, effs) =>
          some (⟨some Res.KEEP, a, d2⟩, ⟨st2, c1.promptCount, c1.trace ++ effs⟩)
    | (Res.SKIP, a, c1) => some (⟨some Res.SKIP, a, dest⟩, c1)
  else
    match op c.st src dest with
    | none => none
    | some (st2, effs) => some (⟨none, true, dest⟩, ⟨st2, c.promptCount, c.trace ++ effs⟩)

/-- Depth-stable insertion used to order a folder's descendants so that
every folder precedes the files and folders nested inside it — the
guarantee the source comment (`Folders will come up first`) relies on for
`Vault.recurseChildren`. -/
def insertEntryByDepth (x : String × EKind) :
    List (String × EKind) → List (String × EKind)
  | [] => [x]
  | y :: ys =>
    if pathDepth y.1 ≤ pathDepth x.1 then y :: insertEntryByDepth x ys
    else x :: y :: ys

/-- `Vault.recurseChildren(folder, cb)`: the folder itself followed by
every entry below it, parents before children (depth order). -/
def recurseChildren (st : VaultState) (root : String) (k : EKind) :
    List (String × EKind) :=
  (root, k) ::
    (st.entries.filter (fun e => strStarts (root ++ DIR_SEP) e.1)).foldl
      (fun acc e => insertEntryByDepth e acc) []

/-- One iteration of the child loop inside `_copyFileOrFolder`'s
operation: compute the child path relative to the source root, skip the
child if `dest + childPath` already exists, else copy the file or create
the folder there. -/
def copyChildStep (src dest : String) (acc : VaultState × List Effect)
    (child : String × EKind) : VaultState × List Effect :=
  let target := dest ++ stripPre src child.1
  if vexists acc.1 target then acc
  else
    match child.2 with
    | EKind.file =>
      (addEntry acc.1 target EKind.file, acc.2 ++ [Effect.copyFile child.1 target])
    | EKind.folder =>
      (addEntry acc.1 target EKind.folder, acc.2 ++ [Effect.createFolder target])

/-- The folder branch of `_copyFileOrFolder`'s operation: walk the
subtree of `src` creating folders and copying files at
`dest + childPath`, guarded by the per-child existence check. -/
def copyFolderOp (st : VaultState) (src dest : String) : VaultState × List Effect :=
  (recurseChildren st src EKind.folder).foldl (copyChildStep src dest) (st, [])

/-- The effect the child loop performs for a child created at `t`:
`vault.copy` for a file, `vault.createFolder` for a folder. -/
def createEffectFor (c : String × EKind) (t : String) : Effect :=
  match c.2 with
  | EKind.file => Effect.copyFile c.1 t
  | EKind.folder => Effect.createFolder t

/-- The operation closure of `_copyFileOrFolder`: copy a single file, or
walk a folder's subtree with the per-child existence guard.  `none` when
the source entry is missing (the JS code would throw). -/
def copyOp : OpFn := fun st src dest =>
  match kindOf st src with
  | none => none
  | some EKind.file => some (addEntry st dest EKind.file, [Effect.copyFile src dest])
  | some EKind.folder => some (copyFolderOp st src dest)

/-- The operation closure of `_moveFileOrFolder`: one provider-level
rename/move of the whole entry. -/
def moveOp : OpFn := fun st src dest =>
  match kindOf st src with
  | none => none
  | some _ => some (renameEntry st src dest, [Effect.renameFile src dest])

/-- JS `Map.set` on an insertion-ordered map: update in place when the
key is present, else append. -/
def mapSet (m : List (String × Option Res)) (k : String) (v : Option Res) :
    List (String × Option Res) :=
  if m.any (fun e => e.1 == k) then
    m.map (fun e => if e.1 == k then (k, v) else e)
  else m ++ [(k, v)]

/-- The keys of an outcome map, in order. -/
def mapKeys (m : List (String × Option Res)) : List String := m.map Prod.fst

/-- JS `Map.get`. -/
def mapGet (m : List (String × Option Res)) (k : String) : Option (Option Res) :=
  (m.find? (fun e => e.1 == k)).map Prod.snd

/-- The shared loop of `moveFiles` / `copyFiles`: for each `(src, name)`
entry the intended destination is `path + "/" + name`; the conflict
solver runs with the currently remembered `resolve`; the outcome is
recorded under the *intended* destination via `stats.set`; and when the
solver reports `applyToAll` the remembered `resolve` becomes the returned
resolution (`if (applyToAll) resolve = resolution`). -/
def runBatch (oracle : Oracle) (op : OpFn) (fuel : Nat) (destFolder : String) :
    List (String × String) → Option Res → Ctx → List (String × Option Res) →
    Option (List (String × Option Res) × Ctx)
  | [], _, c, stats => some (stats, c)
  | (src, name) :: rest, resolve, c, stats =>
    let newDest := destFolder ++ DIR_SEP ++ name
    match conflictSolver oracle op src newDest resolve fuel c with
    | none => none
    | some (out, c1) =>
      runBatch oracle op fuel destFolder rest
        (if out.applyToAll then out.res else resolve)
        c1 (mapSet stats newDest out.res)

/-- `FileManager.moveFiles`: returns the empty outcome map and touches
nothing when no file-explorer view is available, else runs the batch with
`_moveFileOrFolder`. -/
def moveFiles (hasExplorer : Bool) (path : String)
    (pathToName : List (String × String)) (resolve : Option Res)
    (st : VaultState) (oracle : Oracle) (fuel : Nat) :
    Option (List (String × Option Res) × Ctx) :=
  if hasExplorer then runBatch oracle moveOp fuel path pathToName resolve ⟨st, 0, []⟩ []
  else some ([], ⟨st, 0, []⟩)

/-- `FileManager.copyFiles`: same loop with `_copyFileOrFolder`. -/
def copyFiles (hasExplorer : Bool) (path : String)
    (pathToName : List (String × String)) (resolve : Option Res)
    (st : VaultState) (oracle : Oracle) (fuel : Nat) :
    Option (List (String × Option Res) × Ctx) :=
  if hasExplorer then runBatch oracle copyOp fuel path pathToName resolve ⟨st, 0, []⟩ []
  else some ([], ⟨st, 0, []⟩)

/-- `FileManager.duplicateFile`: copy the active entry to
`addSuffixBeforeExtension(src, settings.duplicateSuffix)` with resolution
`KEEP` (the trailing focus-and-rename UI step is not modelled). -/
def duplicateFile (st : VaultState) (activePath dupSuffix : String)
    (oracle : Oracle) (fuel : Nat) : Option (SolverOut × Ctx) :=
  conflictSolver oracle copyOp activePath
    (addSuffixBeforeExtension activePath dupSuffix) (some Res.KEEP) fuel ⟨st, 0, []⟩

/-- `FileOperation` from `main.ts`. -/
inductive FileOperation
  | COPY
  | MOVE
  deriving DecidableEq

/-- The plugin state relevant to the clipboard commands: the held
path-to-name map and the pending operation kind. -/
structure PluginSt where
  clipboard : Option (List (String × String))
  fileOp : FileOperation
  deriving DecidableEq

/-- The `paste-files-from-clipboard` command body: with a non-null
clipboard, run `copyFiles` or `moveFiles` (depending on the held kind)
against the active folder, then set the clipboard to null only when the
kind is `MOVE`. -/
def pasteFilesFromClipboard (ps : PluginSt) (hasExplorer : Bool)
    (activePath : String) (st : VaultState) (oracle : Oracle) (fuel : Nat) :
    Option (PluginSt × List (String × Option Res) × Ctx) :=
  match ps.clipboard with
  | none => some (ps, [], ⟨st, 0, []⟩)
  | some cb =>
    let run :=
      match ps.fileOp with
      | FileOperation.COPY => copyFiles hasExplorer activePath cb none st oracle fuel
      | FileOperation.MOVE => moveFiles hasExplorer activePath cb none st oracle fuel
    match run with
    | none => none
    | some (stats, c) =>
      let ps2 :=
        match ps.fileOp with
        | FileOperation.MOVE => PluginSt.mk none ps.fileOp
        | FileOperation.COPY => ps
      some (ps2, stats, c)

/-- File-explorer selection state: the `fileItems` paths in insertion
order and `tree.selectedDoms`. -/
structure SelSt where
  items : List String
  selected : List String
  deriving DecidableEq

/-- `tree.selectItem` (JS `Set.add` on `selectedDoms`). -/
def selectItemSel (s : SelSt) (p : String) : SelSt :=
  if p ∈ s.selected then s else ⟨s.items, s.selected ++ [p]⟩

/-- `tree.deselectItem` (JS `Set.delete`). -/
def deselectItemSel (s : SelSt) (p : String) : SelSt :=
  ⟨s.items, s.selected.filter (fun q => !(q == p))⟩

/-- `tree.clearSelectedDoms`. -/
def clearSelectedDoms (s : SelSt) : SelSt := ⟨s.items, []⟩

/-- `FileManager.selectAll` (current version, `src/file_manager.ts` of
the plugin sources): select every item dangling from the active item's
parent.  The TS function body ends without a `return` statement, so its
value is `undefined`, modelled as `none`; the second component is the
mutated selection state. -/
def selectAll (s : SelSt) (hasActive : Bool) (activeParent : Option String)
    (clearSelection : Bool) : Option Nat × SelSt :=
  if hasActive then
    match activeParent with
    | none => (none, s)
    | some pp =>
      let pp2 := if pp == DIR_SEP then "" else pp ++ DIR_SEP
      let s1 := if clearSelection then clearSelectedDoms s else s
      (none,
        s.items.foldl (fun acc p => if strStarts pp2 p then selectItemSel acc p else acc) s1)
  else (none, s)

/-- `FileManager.toggleSelect` (current version): toggle the active
item's membership in the selection; no `return` statement, value
`undefined`. -/
def toggleSelect (s : SelSt) (hasActive : Bool) (activePath : String)
    (clearSelection : Bool) : Option Nat × SelSt :=
  if hasActive then
    let s1 := if clearSelection then clearSelectedDoms s else s
    (none,
      if activePath ∈ s1.selected then deselectItemSel s1 activePath
      else selectItemSel s1 activePath)
  else (none, s)

/-- `FileManager.invertSelection` (current version): select exactly the
items not currently selected; no `return` statement, value `undefined`. -/
def invertSelection (s : SelSt) (hasExplorer : Bool) : Option Nat × SelSt :=
  if hasExplorer then
    let toSelect := s.items.filter (fun p => !(s.selected.contains p))
    (none, toSelect.foldl selectItemSel (clearSelectedDoms s))
  else (none, s)

/-- `FileManager.deselectAll` (current version): clear the selection; no
`return` statement, value `undefined`. -/
def deselectAll (s : SelSt) (hasExplorer : Bool) : Option Nat × SelSt :=
  if hasExplorer then (none, clearSelectedDoms s) else (none, s)

/-- `FileManager.selectItems` — for contrast: this neighbouring method
does return `fileExplorer.tree.selectedDoms.size`. -/
def selectItems (s : SelSt) (hasExplorer : Bool) (paths : List String)
    (clearSelection : Bool) : Option Nat × SelSt :=
  let s0 := if clearSelection then (deselectAll s hasExplorer).2 else s
  if hasExplorer then
    let s1 := paths.foldl
      (fun acc p => if acc.items.contains p then selectItemSel acc p else acc) s0
    (some s1.selected.length, s1)
  else (some 0, s0)

/-- A concrete two-collision existence predicate for the C4 witness. -/
def exWitExists (s : String) : Bool :=
  s == "home/notes/file.md" || s == "home/notes/file 1.md"

/-- Concrete vault for the C1 evaluation: of the three intended
destinations `dst/n`, `dst/m`, `dst/n2`, the first and third collide. -/
def stBatchC1 : VaultState :=
  ⟨[("s1", EKind.file), ("s2", EKind.file), ("s3", EKind.file),
    ("dst", EKind.folder), ("dst/n", EKind.file), ("dst/n2", EKind.file)]⟩

/-- Resolution source for the C1 evaluation: the first consultation
answers `(KEEP, applyToAll = true)`; any further consultation answers
`(SKIP, false)`. -/
def orcBatchC1 : Oracle := fun n => if n == 0 then (Res.KEEP, true) else (Res.SKIP, false)

/-- Resolution source that always answers `(KEEP, applyToAll = true)`. -/
def orcKeepAll : Oracle := fun _ => (Res.KEEP, true)

/-- Concrete vault for the C5 witness. -/
def stC5 : VaultState := ⟨[("dst", EKind.folder), ("x.md", EKind.file)]⟩

/-- Concrete vault for the C2 scenario: source folder `a` with one file,
and the intended destination `dst/a` already taken. -/
def stC2 : VaultState :=
  ⟨[("a", EKind.folder), ("a/x.md", EKind.file),
    ("dst", EKind.folder), ("dst/a", EKind.folder)]⟩

/-- The solver output of the C2 Keep scenario: resolution Keep with the
disambiguated final destination. -/
def outC2 : SolverOut := ⟨some Res.KEEP, true, "dst/a 1"⟩

/-- The context produced by the C2 Keep scenario: the children of `a`
were created under `dst/a 1`, not under `dst/a`. -/
def ctxC2 : Ctx :=
  ⟨⟨[("dst/a 1/x.md", EKind.file), ("dst/a 1", EKind.folder), ("a", EKind.folder),
     ("a/x.md", EKind.file), ("dst", EKind.folder), ("dst/a", EKind.folder)]⟩, 0,
   [Effect.createFolder "dst/a 1", Effect.copyFile "a/x.md" "dst/a 1/x.md"]⟩

/-- Concrete vault for the C6 scenario: two sources named `x.md` in
different folders. -/
def stC6 : VaultState :=
  ⟨[("a", EKind.folder), ("a/x.md", EKind.file),
    ("b", EKind.folder), ("b/x.md", EKind.file), ("dst", EKind.folder)]⟩

/-- Concrete vault for the C7 witness: the suffixed duplicate name is
already taken. -/
def stDup : VaultState :=
  ⟨[("home", EKind.folder), ("home/f.md", EKind.file), ("home/f 1.md", EKind.file)]⟩

/-- Concrete vault for the C9 witness. -/
def stPaste : VaultState := ⟨[("x.md", EKind.file), ("dst", EKind.folder)]⟩

end FileMgrSpec

namespace FileMgrSpec

theorem dedupKeepFirst_subset {a : String} :
    ∀ {l seen : List String}, a ∈ dedupKeepFirst l seen → a ∈ l := by
  intro l
  induction l with
  | nil => intro seen h; simp [dedupKeepFirst] at h
  | cons x xs ih =>
    intro seen h
    by_cases hx : x ∈ seen
    · simp [dedupKeepFirst, hx] at h
      exact List.mem_cons_of_mem _ (ih h)
    · simp [dedupKeepFirst, hx] at h
      rcases h with h | h
      · simp [h]
      · exact List.mem_cons_of_mem _ (ih h)

theorem getAllAncestors_of_depth_one {p : String} (h : pathDepth p = 1) :
    getAllAncestors p = [] := by
  simp [getAllAncestors, h]

/-- Membership characterization of `getAllAncestors`: the strict
path-prefixes of `p` are the joins of proper nonempty initial segment
lists of `p`. -/
theorem mem_getAllAncestors_iff {a p : String} :
    a ∈ getAllAncestors p ↔
      ∃ k, 1 ≤ k ∧ k < pathDepth p ∧ a = joinSegs DIR_SEP ((pathSegs p).take k) := by
  constructor
  · intro h
    simp only [getAllAncestors, List.mem_map, List.mem_range] at h
    obtain ⟨i, hi, ha⟩ := h
    exact ⟨i + 1, Nat.le_add_left 1 i, by omega, ha.symm⟩
  · rintro ⟨k, hk1, hk2, rfl⟩
    simp only [getAllAncestors, List.mem_map, List.mem_range]
    have hk : k - 1 + 1 = k := by omega
    exact ⟨k - 1, by omega, by rw [hk]⟩

example : addSuffixBeforeExtension "home/notes/file.md" " copy" = "home/notes/file copy.md" := by
  decide

example : addSuffixBeforeExtension "test" " copy" = "test copy" := by decide

example : getAllAncestors "home/notes/file.md" = ["home", "home/notes"] := by decide

example : pruneDescendantsPaths ["home/notes", "home/notes/folder", "home/notes/file.md"] =
    ["home/notes"] := by decide

example : pruneDescendantsPaths ["a/b.md", "a"] = ["a"] := by decide

/-- C3: for every input list of paths `S`, the output of
`pruneDescendantsPaths S` contains no element that is a strict
path-prefix (with respect to the `/` separator, i.e. an element of
`getAllAncestors`) of another element of the output. -/
theorem C3_pruneDescendantsPaths_pruned (S : List String) (a b : String)
    (ha : a ∈ pruneDescendantsPaths S) (hb : b ∈ pruneDescendantsPaths S) :
    a ∉ getAllAncestors b := by
  intro hmem
  unfold pruneDescendantsPaths at ha hb
  rw [List.mem_filter] at ha hb
  obtain ⟨haD, -⟩ := ha
  obtain ⟨hbD, hbKeep⟩ := hb
  simp only [keepPath, Bool.or_eq_true, beq_iff_eq, Bool.not_eq_true',
    List.any_eq_false] at hbKeep
  rcases hbKeep with h1 | h2
  · rw [getAllAncestors_of_depth_one h1] at hmem
    exact List.not_mem_nil a hmem
  · have hfalse := h2 a hmem
    have htrue : depthHas (dedupKeepFirst (sortPathsByDepth S) []) (pathDepth a) a = true := by
      simp only [depthHas, List.any_eq_true]
      exact ⟨a, haD, by simp⟩
    rw [htrue] at hfalse
    exact absurd hfalse (by simp)

/-- Witness for C3 at a concrete selection. -/
theorem C3_pruneDescendantsPaths_pruned_witness :
    "a" ∈ pruneDescendantsPaths ["a/b.md", "a"] ∧ "a" ∉ getAllAncestors "a" :=
  ⟨by decide, C3_pruneDescendantsPaths_pruned ["a/b.md", "a"] "a" "a" (by decide) (by decide)⟩

theorem genAux_spec (existsp : String → Bool) (path : String) (de : Bool) :
    ∀ (fuel : Nat) (cur : String) (i : Nat) (r : String),
      genAux existsp path de fuel cur i = some r →
      existsp r = false ∧
      (existsp cur = false → r = cur) ∧
      (existsp cur = true →
        ∃ m, i ≤ m ∧ r = candidate path de m ∧
          ∀ j, i ≤ j → j < m → existsp (candidate path de j) = true) := by
  intro fuel
  induction fuel with
  | zero =>
    intro cur i r h
    by_cases hcur : existsp cur
    · simp [genAux, hcur] at h
    · simp [genAux, hcur] at h
      subst h
      refine ⟨by simp [hcur], fun _ => rfl, fun htrue => ?_⟩
      rw [htrue] at hcur; exact absurd rfl hcur
  | succ fuel ih =>
    intro cur i r h
    by_cases hcur : existsp cur
    · rw [genAux, if_pos hcur] at h
      obtain ⟨h1, h2, h3⟩ := ih (candidate path de i) (i + 1) r h
      refine ⟨h1, fun hfalse => ?_, fun _ => ?_⟩
      · rw [hcur] at hfalse; cases hfalse
      by_cases hc : existsp (candidate path de i)
      · obtain ⟨m, hm, hr, hall⟩ := h3 hc
        refine ⟨m, by omega, hr, fun j hj1 hj2 => ?_⟩
        rcases Nat.eq_or_lt_of_le hj1 with hji | hji
        · rw [← hji]; exact hc
        · exact hall j hji hj2
      · have hr := h2 (by simpa using hc)
        exact ⟨i, Nat.le_refl i, hr, fun j hj1 hj2 => by omega⟩
    · rw [genAux, if_neg hcur] at h
      cases h
      refine ⟨by simpa using hcur, fun _ => rfl, fun htrue => ?_⟩
      rw [htrue] at hcur; exact absurd rfl hcur

/-- C4: whenever `genNonExistingPath` terminates (returns within its
fuel), its result does not satisfy the existence predicate; it is the
path itself when the path is free, and otherwise the first candidate
`candidate path dealWithExt i` (i = 1, 2, 3, ...) that is free — every
candidate is built from the original path with a fresh counter value,
never by re-suffixing a previously tried candidate. -/
theorem C4_genNonExistingPath_first_free (existsp : String → Bool) (path : String)
    (de : Bool) (fuel : Nat) (r : String)
    (h : genNonExistingPath existsp path de fuel = some r) :
    existsp r = false ∧
    (existsp path = false → r = path) ∧
    (existsp path = true →
      ∃ i, 1 ≤ i ∧ r = candidate path de i ∧
        ∀ j, 1 ≤ j → j < i → existsp (candidate path de j) = true) :=
  genAux_spec existsp path de fuel path 1 r h

/-- Witness for C4 at a concrete file-item map. -/
theorem C4_genNonExistingPath_first_free_witness :
    exWitExists "home/notes/file 2.md" = false ∧
    (exWitExists "home/notes/file.md" = false → "home/notes/file 2.md" = "home/notes/file.md") ∧
    (exWitExists "home/notes/file.md" = true →
      ∃ i, 1 ≤ i ∧ "home/notes/file 2.md" = candidate "home/notes/file.md" true i ∧
        ∀ j, 1 ≤ j → j < i → exWitExists (candidate "home/notes/file.md" true j) = true) :=
  C4_genNonExistingPath_first_free exWitExists "home/notes/file.md" true 5
    "home/notes/file 2.md" (by decide)

/-- C10: for every destination folder and argument combination, when no
file-explorer view is available in the workspace, `copyFiles` and
`moveFiles` return an empty outcome map, leave the tree untouched,
record no effects (no create, copy, move, delete) and consult no
conflict-resolution source. -/
theorem C10_no_explorer_no_mutation (path : String)
    (pathToName : List (String × String)) (resolve : Option Res)
    (st : VaultState) (oracle : Oracle) (fuel : Nat) :
    moveFiles false path pathToName resolve st oracle fuel = some ([], ⟨st, 0, []⟩) ∧
    copyFiles false path pathToName resolve st oracle fuel = some ([], ⟨st, 0, []⟩) :=
  ⟨rfl, rfl⟩

/-- C5: when the destination does not exist, `_conflictSolver` performs
the caller's operation exactly once, with the original source and
destination, and returns resolution null together with applyToAll =
true, without consulting the configured policy or prompting the user
(the consultation counter and trace gain nothing but the operation's own
effects). -/
theorem C5_conflictSolver_no_conflict (oracle : Oracle) (op : OpFn)
    (src dest : String) (resolve : Option Res) (fuel : Nat) (c : Ctx)
    (h : vexists c.st dest = false) :
    conflictSolver oracle op src dest resolve fuel c =
      (op c.st src dest).map
        (fun r => (⟨none, true, dest⟩, ⟨r.1, c.promptCount, c.trace ++ r.2⟩)) := by
  simp only [conflictSolver, h, Bool.false_eq_true, if_false]
  cases hop : op c.st src dest with
  | none => rfl
  | some r => rfl

/-- Witness for C5 at a concrete non-colliding destination. -/
theorem C5_conflictSolver_no_conflict_witness :
    vexists stC5 "dst/x.md" = false ∧
    conflictSolver orcKeepAll copyOp "x.md" "dst/x.md" none 5 ⟨stC5, 0, []⟩ =
      (copyOp stC5 "x.md" "dst/x.md").map
        (fun r => (⟨none, true, "dst/x.md"⟩, ⟨r.1, 0, [] ++ r.2⟩)) :=
  ⟨by decide,
    C5_conflictSolver_no_conflict orcKeepAll copyOp "x.md" "dst/x.md" none 5
      ⟨stC5, 0, []⟩ (by decide)⟩

/-- C9: pasting with a non-null clipboard sets the clipboard to null
after the engine call when the held kind is Move — so a second paste
finds it empty and performs nothing — while after a Copy the clipboard
still holds the same path-to-name map. -/
theorem C9_paste_clipboard (ps : PluginSt) (hasExplorer : Bool)
    (activePath : String) (st : VaultState) (oracle : Oracle) (fuel : Nat)
    (cb : List (String × String)) (ps2 : PluginSt)
    (stats : List (String × Option Res)) (c : Ctx)
    (hcb : ps.clipboard = some cb)
    (h : pasteFilesFromClipboard ps hasExplorer activePath st oracle fuel =
      some (ps2, stats, c)) :
    (ps.fileOp = FileOperation.MOVE → ps2.clipboard = none) ∧
    (ps.fileOp = FileOperation.COPY → ps2.clipboard = some cb) ∧
    (ps2.clipboard = none →
      pasteFilesFromClipboard ps2 hasExplorer activePath st oracle fuel =
        some (ps2, [], ⟨st, 0, []⟩)) := by
  obtain ⟨cbo, fop⟩ := ps
  simp only at hcb
  subst hcb
  cases fop with
  | MOVE =>
    simp only [pasteFilesFromClipboard] at h
    cases hrun : moveFiles hasExplorer activePath cb none st oracle fuel with
    | none => rw [hrun] at h; cases h
    | some r =>
      obtain ⟨stats0, c0⟩ := r
      rw [hrun] at h
      simp only [Option.some.injEq, Prod.mk.injEq] at h
      obtain ⟨h1, h2, h3⟩ := h
      subst h1
      exact ⟨fun _ => rfl, fun hcopy => by simp at hcopy, fun _ => rfl⟩
  | COPY =>
    simp only [pasteFilesFromClipboard] at h
    cases hrun : copyFiles hasExplorer activePath cb none st oracle fuel with
    | none => rw [hrun] at h; cases h
    | some r =>
      obtain ⟨stats0, c0⟩ := r
      rw [hrun] at h
      simp only [Option.some.injEq, Prod.mk.injEq] at h
      obtain ⟨h1, h2, h3⟩ := h
      subst h1
      exact ⟨fun hmove => by simp at hmove, fun _ => rfl,
        fun hnone => by simp at hnone⟩

/-- Witness for C9: a concrete Move-paste. -/
theorem C9_paste_clipboard_witness :
    (FileOperation.MOVE = FileOperation.MOVE →
      (PluginSt.mk none FileOperation.MOVE).clipboard = none) ∧
    (FileOperation.MOVE = FileOperation.COPY →
      (PluginSt.mk none FileOperation.MOVE).clipboard = some [("x.md", "x.md")]) ∧
    ((PluginSt.mk none FileOperation.MOVE).clipboard = none →
      pasteFilesFromClipboard (PluginSt.mk none FileOperation.MOVE) true "dst"
          stPaste orcKeepAll 5 =
        some (PluginSt.mk none FileOperation.MOVE, [], ⟨stPaste, 0, []⟩)) := by
  have hps : (PluginSt.mk (some [("x.md", "x.md")]) FileOperation.MOVE).fileOp =
      FileOperation.MOVE := rfl
  exact hps ▸ C9_paste_clipboard
    (PluginSt.mk (some [("x.md", "x.md")]) FileOperation.MOVE) true "dst" stPaste
    orcKeepAll 5 [("x.md", "x.md")] (PluginSt.mk none FileOperation.MOVE)
    [("dst/x.md", none)]
    ⟨⟨[("dst/x.md", EKind.file), ("dst", EKind.folder)]⟩, 0,
      [Effect.renameFile "x.md" "dst/x.md"]⟩
    (by decide) (by decide)

/-- C8 (evaluation of the code at a failing input): the selection-state
methods `selectAll`, `toggleSelect`, `invertSelection` and `deselectAll`
mutate the selection but — having no `return` statement in the current
source — return `undefined` (modelled `none`) rather than the resulting
selection count; the neighbouring `selectItems` does return the count. -/
theorem C8_selection_methods_return_undefined :
    selectAll ⟨["a", "b"], []⟩ true (some "/") true = (none, ⟨["a", "b"], ["a", "b"]⟩) ∧
    toggleSelect ⟨["a", "b"], []⟩ true "a" false = (none, ⟨["a", "b"], ["a"]⟩) ∧
    invertSelection ⟨["a", "b"], ["a"]⟩ true = (none, ⟨["a", "b"], ["b"]⟩) ∧
    deselectAll ⟨["a", "b"], ["a", "b"]⟩ true = (none, ⟨["a", "b"], []⟩) ∧
    selectItems ⟨["a", "b"], []⟩ true ["a", "b"] true = (some 2, ⟨["a", "b"], ["a", "b"]⟩) := by
  decide

theorem strStarts_self (s : String) : strStarts s s = true := by
  simp [strStarts, List.take_length]

theorem stripPre_self (s : String) : stripPre s s = "" := by
  simp only [stripPre, strStarts_self, if_true, List.drop_length]

theorem strAppend_empty (s : String) : s ++ "" = s :=
  String.ext (by simp [String.data_append])

theorem strAppend_left_cancel {d x y : String} (h : d ++ x = d ++ y) : x = y := by
  apply String.ext
  have hd : d.data ++ x.data = d.data ++ y.data := by
    have h2 := congrArg String.data h
    simpa [String.data_append] using h2
  exact List.append_cancel_left hd

theorem mem_vexists {st : VaultState} {p : String} {k : EKind}
    (h : (p, k) ∈ st.entries) : vexists st p = true := by
  simp only [vexists, List.any_eq_true]
  exact ⟨(p, k), h, by simp⟩

theorem kindOf_addEntry_self (st : VaultState) (p : String) (k : EKind) :
    kindOf (addEntry st p k) p = some k := by
  simp [kindOf, addEntry, List.find?]

theorem kindOf_addEntry_ne (st : VaultState) (p q : String) (k : EKind)
    (hne : p ≠ q) : kindOf (addEntry st p k) q = kindOf st q := by
  have hpq : (p == q) = false := by simpa using hne
  simp [kindOf, addEntry, List.find?, hpq]

theorem any_eq_find?_isSome {α : Type} (f : α → Bool) :
    ∀ l : List α, l.any f = (l.find? f).isSome := by
  intro l
  induction l with
  | nil => rfl
  | cons x xs ih =>
    by_cases hx : f x
    · simp [List.any_cons, hx, List.find?_cons_of_pos]
    · simp [List.any_cons, hx, List.find?_cons_of_neg, ih]

theorem vexists_eq_isSome (st : VaultState) (p : String) :
    vexists st p = (kindOf st p).isSome := by
  rw [vexists, kindOf, any_eq_find?_isSome]
  cases List.find? (fun e => e.1 == p) st.entries <;> rfl

theorem copyChildStep_preserve (src dest : String) (acc : VaultState × List Effect)
    (ch : String × EKind) (e : String × EKind) (he : e ∈ acc.1.entries) :
    e ∈ ((copyChildStep src dest acc ch).1).entries := by
  simp only [copyChildStep]
  split
  · exact he
  · split <;> exact List.mem_cons_of_mem _ he

theorem copyFold_preserve (src dest : String) :
    ∀ (cs : List (String × EKind)) (acc : VaultState × List Effect)
      (e : String × EKind), e ∈ acc.1.entries →
      e ∈ ((cs.foldl (copyChildStep src dest) acc).1).entries := by
  intro cs
  induction cs with
  | nil => intro acc e he; exact he
  | cons ch rest ih =>
    intro acc e he
    rw [List.foldl_cons]
    exact ih _ e (copyChildStep_preserve src dest acc ch e he)

theorem copyFold_trace (src dest : String) :
    ∀ (cs : List (String × EKind)) (acc : VaultState × List Effect),
      ∃ extra, ((cs.foldl (copyChildStep src dest) acc).2) = acc.2 ++ extra ∧
        ∀ ev ∈ extra, Effect.isCreate ev = true ∧
          ∃ ch ∈ cs, Effect.target ev = dest ++ stripPre src ch.1 := by
  intro cs
  induction cs with
  | nil => intro acc; exact ⟨[], by simp, by simp⟩
  | cons ch rest ih =>
    intro acc
    rw [List.foldl_cons]
    obtain ⟨extra, hext, hall⟩ := ih (copyChildStep src dest acc ch)
    have hstep : ((copyChildStep src dest acc ch).2 = acc.2 ∧
        (copyChildStep src dest acc ch).1 = acc.1) ∨
        ∃ ev, (copyChildStep src dest acc ch).2 = acc.2 ++ [ev] ∧
          Effect.isCreate ev = true ∧
          Effect.target ev = dest ++ stripPre src ch.1 := by
      simp only [copyChildStep]
      split
      · exact Or.inl ⟨rfl, rfl⟩
      · split
        · exact Or.inr ⟨_, rfl, rfl, rfl⟩
        · exact Or.inr ⟨_, rfl, rfl, rfl⟩
    rcases hstep with ⟨h2, -⟩ | ⟨ev, h2, hcr, htg⟩
    · refine ⟨extra, by rw [hext, h2], fun e he => ?_⟩
      obtain ⟨hc, ch2, hch2, ht2⟩ := hall e he
      exact ⟨hc, ch2, List.mem_cons_of_mem _ hch2, ht2⟩
    · refine ⟨ev :: extra, ?_, ?_⟩
      · rw [hext, h2, List.append_assoc]
        rfl
      · intro e he
        rcases List.mem_cons.mp he with rfl | he2
        · exact ⟨hcr, ch, List.mem_cons_self _ _, htg⟩
        · obtain ⟨hc, ch2, hch2, ht2⟩ := hall e he2
          exact ⟨hc, ch2, List.mem_cons_of_mem _ hch2, ht2⟩

theorem copyOp_cases (st : VaultState) (src dest : String) (st2 : VaultState)
    (effs : List Effect) (h : copyOp st src dest = some (st2, effs)) :
    (kindOf st src = some EKind.file ∧
      st2 = addEntry st dest EKind.file ∧ effs = [Effect.copyFile src dest]) ∨
    (kindOf st src = some EKind.folder ∧ (st2, effs) = copyFolderOp st src dest) := by
  rw [copyOp] at h
  cases hk : kindOf st src with
  | none => rw [hk] at h; cases h
  | some k =>
    rw [hk] at h
    cases k with
    | file =>
      cases h
      exact Or.inl ⟨rfl, rfl, rfl⟩
    | folder =>
      exact Or.inr ⟨rfl, (Option.some.inj h).symm⟩

theorem copyFolderOp_preserve (st : VaultState) (src dest : String)
    (e : String × EKind) (he : e ∈ st.entries) :
    e ∈ (copyFolderOp st src dest).1.entries :=
  copyFold_preserve src dest _ (st, []) e he

theorem copyOp_preserve (st : VaultState) (src dest : String)
    (st2 : VaultState) (effs : List Effect)
    (h : copyOp st src dest = some (st2, effs)) :
    ∀ e, e ∈ st.entries → e ∈ st2.entries := by
  intro e he
  rcases copyOp_cases st src dest st2 effs h with ⟨-, rfl, -⟩ | ⟨-, hfold⟩
  · exact List.mem_cons_of_mem _ he
  · have hst : st2 = (copyFolderOp st src dest).1 := by rw [← hfold]
    rw [hst]
    exact copyFolderOp_preserve st src dest e he

theorem copyOp_trace_create (st : VaultState) (src dest : String)
    (st2 : VaultState) (effs : List Effect)
    (h : copyOp st src dest = some (st2, effs)) :
    ∀ ev, ev ∈ effs → Effect.isCreate ev = true := by
  intro ev hev
  rcases copyOp_cases st src dest st2 effs h with ⟨-, -, rfl⟩ | ⟨-, hfold⟩
  · rcases List.mem_singleton.mp hev with rfl
    rfl
  · have heffs : effs = (copyFolderOp st src dest).2 := by rw [← hfold]
    obtain ⟨extra, hext, hall⟩ :=
      copyFold_trace src dest (recurseChildren st src EKind.folder) (st, [])
    rw [heffs] at hev
    rw [copyFolderOp, hext] at hev
    exact (hall ev (by simpa using hev)).1

theorem copyFolderOp_creates_dest (st : VaultState) (src dest : String)
    (hex : vexists st dest = false) :
    vexists (copyFolderOp st src dest).1 dest = true := by
  have ht : dest ++ stripPre src src = dest := by rw [stripPre_self, strAppend_empty]
  have hstep : copyChildStep src dest (st, []) (src, EKind.folder) =
      (addEntry st dest EKind.folder, [] ++ [Effect.createFolder dest]) := by
    simp only [copyChildStep, ht, hex, Bool.false_eq_true, if_false]
  rw [copyFolderOp, recurseChildren, List.foldl_cons, hstep]
  exact mem_vexists (copyFold_preserve src dest _ _
    (dest, EKind.folder) (List.mem_cons_self _ _))

theorem copyOp_creates_dest (st : VaultState) (src dest : String)
    (hex : vexists st dest = false) (st2 : VaultState) (effs : List Effect)
    (h : copyOp st src dest = some (st2, effs)) :
    vexists st2 dest = true := by
  rcases copyOp_cases st src dest st2 effs h with ⟨-, rfl, -⟩ | ⟨-, hfold⟩
  · exact mem_vexists (List.mem_cons_self _ _)
  · have hst : st2 = (copyFolderOp st src dest).1 := by rw [← hfold]
    rw [hst]
    exact copyFolderOp_creates_dest st src dest hex

theorem strStarts_append_stripPre {pre s : String} (h : strStarts pre s = true) :
    pre ++ stripPre pre s = s := by
  have h2 : s.data.take pre.data.length = pre.data := by
    simpa [strStarts] using h
  apply String.ext
  rw [String.data_append, stripPre, if_pos h]
  show pre.data ++ s.data.drop pre.data.length = s.data
  nth_rewrite 1 [← h2]
  exact List.take_append_drop _ _

theorem stripPre_inj {pre s1 s2 : String} (h1 : strStarts pre s1 = true)
    (h2 : strStarts pre s2 = true) (he : stripPre pre s1 = stripPre pre s2) :
    s1 = s2 := by
  rw [← strStarts_append_stripPre h1, ← strStarts_append_stripPre h2, he]

theorem sep_toList (src : String) : (src ++ DIR_SEP).toList = src.toList ++ ['/'] := by
  show (src ++ DIR_SEP).data = src.data ++ ['/']
  rw [String.data_append]
  rfl

theorem strStarts_sep_take {src q : String}
    (h : strStarts (src ++ DIR_SEP) q = true) :
    q.toList.take (src.toList.length + 1) = src.toList ++ ['/'] := by
  have h2 : q.toList.take ((src ++ DIR_SEP).toList.length) = (src ++ DIR_SEP).toList := by
    simpa [strStarts] using h
  rw [sep_toList] at h2
  have hlen : (src.toList ++ ['/']).length = src.toList.length + 1 := by simp
  rw [hlen] at h2
  exact h2

theorem not_strStarts_sep_self (src : String) :
    strStarts (src ++ DIR_SEP) src = false := by
  by_contra hcon
  have h : strStarts (src ++ DIR_SEP) src = true := by
    cases hsb : strStarts (src ++ DIR_SEP) src
    · exact absurd hsb hcon
    · rfl
  have h2 := strStarts_sep_take h
  have h3 := congrArg List.length h2
  simp only [List.length_take, List.length_append] at h3
  have h4 : min (src.toList.length + 1) src.toList.length = src.toList.length := by omega
  rw [h4] at h3
  simp at h3

theorem strStarts_sep_len {src q : String}
    (h : strStarts (src ++ DIR_SEP) q = true) :
    src.toList.length + 1 ≤ q.toList.length := by
  have h2 := congrArg List.length (strStarts_sep_take h)
  simp only [List.length_take, List.length_append, List.length_cons,
    List.length_nil] at h2
  omega

theorem strStarts_of_sep {src q : String}
    (h : strStarts (src ++ DIR_SEP) q = true) : strStarts src q = true := by
  have h2 := strStarts_sep_take h
  have h3 : q.toList.take src.toList.length = src.toList := by
    have h4 : q.toList.take src.toList.length =
        (q.toList.take (src.toList.length + 1)).take src.toList.length := by
      rw [List.take_take]
      congr 1
      omega
    rw [h4, h2]
    exact List.take_left src.toList ['/']
  simpa [strStarts] using h3

theorem stripPre_sep_ne_empty {src q : String}
    (h : strStarts (src ++ DIR_SEP) q = true) : stripPre src q ≠ "" := by
  have hlen := strStarts_sep_len h
  rw [stripPre, if_pos (strStarts_of_sep h)]
  intro hcon
  have h2 := congrArg String.toList hcon
  have h3 : (String.mk (q.toList.drop src.toList.length)).toList =
      q.toList.drop src.toList.length := rfl
  rw [h3] at h2
  have h4 := congrArg List.length h2
  simp only [List.length_drop] at h4
  have h5 : ("" : String).toList.length = 0 := rfl
  rw [h5] at h4
  omega

theorem vexists_addEntry_ne (st : VaultState) (p q : String) (k : EKind)
    (hne : p ≠ q) : vexists (addEntry st p k) q = vexists st q := by
  rw [vexists_eq_isSome, vexists_eq_isSome, kindOf_addEntry_ne st p q k hne]

theorem mem_insertEntryByDepth {x a : String × EKind} :
    ∀ {l : List (String × EKind)}, a ∈ insertEntryByDepth x l ↔ a = x ∨ a ∈ l := by
  intro l
  induction l with
  | nil => simp [insertEntryByDepth]
  | cons y ys ih =>
    rw [insertEntryByDepth]
    by_cases hc : pathDepth y.1 ≤ pathDepth x.1
    · rw [if_pos hc]
      simp only [List.mem_cons, ih]
      tauto
    · rw [if_neg hc]
      simp only [List.mem_cons]

theorem mem_foldl_insertEntryByDepth :
    ∀ (l acc : List (String × EKind)) (a : String × EKind),
      a ∈ l.foldl (fun acc e => insertEntryByDepth e acc) acc ↔ a ∈ acc ∨ a ∈ l := by
  intro l
  induction l with
  | nil => intro acc a; simp
  | cons x xs ih =>
    intro acc a
    rw [List.foldl_cons, ih, mem_insertEntryByDepth, List.mem_cons]
    tauto

theorem insertEntryByDepth_perm (x : String × EKind) :
    ∀ (l : List (String × EKind)), List.Perm (insertEntryByDepth x l) (x :: l) := by
  intro l
  induction l with
  | nil => exact List.Perm.refl _
  | cons y ys ih =>
    rw [insertEntryByDepth]
    by_cases hc : pathDepth y.1 ≤ pathDepth x.1
    · rw [if_pos hc]
      exact (ih.cons y).trans (List.Perm.swap x y ys)
    · rw [if_neg hc]

theorem foldl_insertEntryByDepth_perm :
    ∀ (l acc : List (String × EKind)),
      List.Perm (l.foldl (fun acc e => insertEntryByDepth e acc) acc) (acc ++ l) := by
  intro l
  induction l with
  | nil => intro acc; simp
  | cons x xs ih =>
    intro acc
    rw [List.foldl_cons]
    refine (ih (insertEntryByDepth x acc)).trans ?_
    refine (((insertEntryByDepth_perm x acc).append_right xs).trans ?_)
    exact List.perm_middle.symm

theorem recurseChildren_mem {st : VaultState} {src : String} {k : EKind}
    {e : String × EKind} (he : e ∈ recurseChildren st src k) :
    e = (src, k) ∨ (e ∈ st.entries ∧ strStarts (src ++ DIR_SEP) e.1 = true) := by
  rw [recurseChildren] at he
  rcases List.mem_cons.mp he with rfl | he2
  · exact Or.inl rfl
  · rw [mem_foldl_insertEntryByDepth] at he2
    rcases he2 with h0 | he3
    · cases h0
    · exact Or.inr (List.mem_filter.mp he3)

theorem recurseChildren_paths_nodup (st : VaultState) (src : String) (k : EKind)
    (hwf : VaultWf st) : ((recurseChildren st src k).map Prod.fst).Nodup := by
  rw [recurseChildren, List.map_cons]
  refine List.nodup_cons.mpr ⟨?_, ?_⟩
  · intro hcon
    simp only [List.mem_map] at hcon
    obtain ⟨e, he, hefst⟩ := hcon
    rw [mem_foldl_insertEntryByDepth] at he
    rcases he with h0 | he2
    · cases h0
    · have hfil := (List.mem_filter.mp he2).2
      rw [hefst, not_strStarts_sep_self] at hfil
      cases hfil
  · have hperm := (foldl_insertEntryByDepth_perm
      (st.entries.filter (fun e => strStarts (src ++ DIR_SEP) e.1)) []).map Prod.fst
    rw [List.nil_append] at hperm
    rw [hperm.nodup_iff]
    exact List.Nodup.sublist
      (List.Sublist.map Prod.fst (List.filter_sublist st.entries)) hwf

theorem recurseChildren_targets_nodup (st : VaultState) (src d : String) (k : EKind)
    (hwf : VaultWf st) :
    ((recurseChildren st src k).map (fun c => d ++ stripPre src c.1)).Nodup := by
  have hmap : (recurseChildren st src k).map (fun c => d ++ stripPre src c.1) =
      ((recurseChildren st src k).map Prod.fst).map (fun q => d ++ stripPre src q) := by
    rw [List.map_map]
    rfl
  rw [hmap]
  refine List.Nodup.map_on ?_ (recurseChildren_paths_nodup st src k hwf)
  intro q1 hq1 q2 hq2 heq
  have hstrip : stripPre src q1 = stripPre src q2 := strAppend_left_cancel heq
  have hform : ∀ q, q ∈ (recurseChildren st src k).map Prod.fst →
      q = src ∨ strStarts (src ++ DIR_SEP) q = true := by
    intro q hq
    simp only [List.mem_map] at hq
    obtain ⟨e, he, rfl⟩ := hq
    rcases recurseChildren_mem he with rfl | ⟨-, hs⟩
    · exact Or.inl rfl
    · exact Or.inr hs
  rcases hform q1 hq1 with rfl | hs1
  · rcases hform q2 hq2 with rfl | hs2
    · rfl
    · exfalso
      rw [stripPre_self] at hstrip
      exact stripPre_sep_ne_empty hs2 hstrip.symm
  · rcases hform q2 hq2 with rfl | hs2
    · exfalso
      rw [stripPre_self] at hstrip
      exact stripPre_sep_ne_empty hs1 hstrip
    · exact stripPre_inj (strStarts_of_sep hs1) (strStarts_of_sep hs2) hstrip

theorem mapKeys_mapSet (m : List (String × Option Res)) (k : String) (v : Option Res) :
    mapKeys (mapSet m k v) = if k ∈ mapKeys m then mapKeys m else mapKeys m ++ [k] := by
  by_cases hk : k ∈ mapKeys m
  · rw [if_pos hk]
    have hany : m.any (fun e => e.1 == k) = true := by
      simp only [mapKeys, List.mem_map] at hk
      obtain ⟨e, he, hek⟩ := hk
      simp only [List.any_eq_true]
      exact ⟨e, he, by simp [hek]⟩
    rw [mapSet, if_pos hany]
    simp only [mapKeys, List.map_map]
    apply List.map_congr_left
    intro e he
    by_cases hek : e.1 = k
    · simp [hek]
    · simp [hek]
  · have hany : ¬ (m.any (fun e => e.1 == k) = true) := by
      intro hcon
      simp only [List.any_eq_true] at hcon
      obtain ⟨e, he, hek⟩ := hcon
      refine hk ?_
      simp only [mapKeys, List.mem_map]
      exact ⟨e, he, by simpa using hek⟩
    rw [if_neg hk, mapSet, if_neg hany]
    simp [mapKeys]

theorem runBatch_keys (oracle : Oracle) (op : OpFn) (fuel : Nat) (destFolder : String) :
    ∀ (entries : List (String × String)) (resolve : Option Res) (c : Ctx)
      (stats result : List (String × Option Res)) (c2 : Ctx),
      runBatch oracle op fuel destFolder entries resolve c stats = some (result, c2) →
      mapKeys result =
        mapKeys stats ++
          dedupKeepFirst (entries.map (fun e => destFolder ++ DIR_SEP ++ e.2))
            (mapKeys stats) := by
  intro entries
  induction entries with
  | nil =>
    intro resolve c stats result c2 h
    simp only [runBatch] at h
    cases h
    simp [dedupKeepFirst]
  | cons e rest ih =>
    obtain ⟨src, name⟩ := e
    intro resolve c stats result c2 h
    simp only [runBatch] at h
    cases hsolve : conflictSolver oracle op src (destFolder ++ DIR_SEP ++ name)
        resolve fuel c with
    | none => rw [hsolve] at h; cases h
    | some oc =>
      obtain ⟨out, c1⟩ := oc
      rw [hsolve] at h
      have hrec := ih (if out.applyToAll then out.res else resolve) c1
        (mapSet stats (destFolder ++ DIR_SEP ++ name) out.res) result c2 h
      rw [hrec, mapKeys_mapSet]
      by_cases hmem : destFolder ++ DIR_SEP ++ name ∈ mapKeys stats
      · rw [if_pos hmem]
        simp only [List.map_cons, dedupKeepFirst, if_pos hmem]
      · rw [if_neg hmem]
        simp only [List.map_cons, dedupKeepFirst, if_neg hmem]
        rw [List.append_assoc]
        simp

/-- C6 counterexample: two processed ancestors with the same intended
name produce a single-entry outcome map (`stats.set` overwrites the
earlier entry), not one entry per processed ancestor as claimed. -/
theorem C6_counterexample :
    ((copyFiles true "dst" [("a/x.md", "x.md"), ("b/x.md", "x.md")] none stC6
        orcKeepAll 10).map (fun r => r.1.length)) = some 1 := by
  decide

/-- C6 (amended): for every batch processed by moveFiles or copyFiles,
the keys of the returned outcome map are exactly the distinct intended
destinations destFolder + "/" + name in first-occurrence order: the key
recorded for an entry is the original intended destination even when a
Keep resolution performed the operation at a disambiguated path, and the
map gains exactly one entry per *distinct* intended destination — a
repeated intended destination overwrites the earlier entry rather than
adding a second one. -/
theorem C6_stats_keys_original_dest (path : String)
    (entries : List (String × String)) (resolve : Option Res) (st : VaultState)
    (oracle : Oracle) (fuel : Nat) (mstats cstats : List (String × Option Res))
    (mc cc : Ctx)
    (hm : moveFiles true path entries resolve st oracle fuel = some (mstats, mc))
    (hc : copyFiles true path entries resolve st oracle fuel = some (cstats, cc)) :
    mapKeys mstats = dedupKeepFirst (entries.map (fun e => path ++ DIR_SEP ++ e.2)) [] ∧
    mapKeys cstats = dedupKeepFirst (entries.map (fun e => path ++ DIR_SEP ++ e.2)) [] := by
  constructor
  · have hrun : runBatch oracle moveOp fuel path entries resolve ⟨st, 0, []⟩ [] =
        some (mstats, mc) := by simpa [moveFiles] using hm
    simpa [mapKeys] using runBatch_keys oracle moveOp fuel path entries resolve
      ⟨st, 0, []⟩ [] mstats mc hrun
  · have hrun : runBatch oracle copyOp fuel path entries resolve ⟨st, 0, []⟩ [] =
        some (cstats, cc) := by simpa [copyFiles] using hc
    simpa [mapKeys] using runBatch_keys oracle copyOp fuel path entries resolve
      ⟨st, 0, []⟩ [] cstats cc hrun

/-- Witness for C6 at a concrete batch whose two entries share the
intended name `x.md`. -/
theorem C6_stats_keys_original_dest_witness :
    mapKeys [("dst/x.md", some Res.KEEP)] =
      dedupKeepFirst ([("a/x.md", "x.md"), ("b/x.md", "x.md")].map
        (fun e => "dst" ++ DIR_SEP ++ e.2)) [] ∧
    mapKeys [("dst/x.md", some Res.KEEP)] =
      dedupKeepFirst ([("a/x.md", "x.md"), ("b/x.md", "x.md")].map
        (fun e => "dst" ++ DIR_SEP ++ e.2)) [] :=
  C6_stats_keys_original_dest "dst" [("a/x.md", "x.md"), ("b/x.md", "x.md")] none stC6
    orcKeepAll 10 [("dst/x.md", some Res.KEEP)] [("dst/x.md", some Res.KEEP)]
    ⟨⟨[("a", EKind.folder), ("dst/x.md", EKind.file), ("b", EKind.folder),
       ("dst/x 1.md", EKind.file), ("dst", EKind.folder)]⟩, 1,
      [Effect.renameFile "a/x.md" "dst/x.md", Effect.prompt "dst/x.md",
       Effect.renameFile "b/x.md" "dst/x 1.md"]⟩
    ⟨⟨[("dst/x 1.md", EKind.file), ("dst/x.md", EKind.file), ("a", EKind.folder),
       ("a/x.md", EKind.file), ("b", EKind.folder), ("b/x.md", EKind.file),
       ("dst", EKind.folder)]⟩, 1,
      [Effect.copyFile "a/x.md" "dst/x.md", Effect.prompt "dst/x.md",
       Effect.copyFile "b/x.md" "dst/x 1.md"]⟩
    (by decide) (by decide)

/-- C7: `duplicateFile` on an active entry `p` attempts the copy at
`addSuffixBeforeExtension(p, duplicateSuffix)` with resolution Keep: when
that suffixed path is free the copy lands exactly there with no conflict
reported, otherwise the final path is its numeric disambiguation via
`genNonExistingPath`; in both cases the duplicated entry exists
afterwards, every pre-existing entry is still present (nothing is
overwritten or deleted), and the trace holds only create effects (no
trash, no rename, no prompt). -/
theorem C7_duplicateFile_keeps (st : VaultState) (p suffix : String)
    (oracle : Oracle) (fuel : Nat) (out : SolverOut) (c : Ctx) (k : EKind)
    (hk : kindOf st p = some k)
    (h : duplicateFile st p suffix oracle fuel = some (out, c)) :
    (vexists st (addSuffixBeforeExtension p suffix) = false →
      out.finalDest = addSuffixBeforeExtension p suffix ∧ out.res = none) ∧
    (vexists st (addSuffixBeforeExtension p suffix) = true →
      genNonExistingPath (vexists st) (addSuffixBeforeExtension p suffix) true fuel =
        some out.finalDest ∧ out.res = some Res.KEEP) ∧
    vexists c.st out.finalDest = true ∧
    (∀ e, e ∈ st.entries → e ∈ c.st.entries) ∧
    (∀ ev, ev ∈ c.trace → Effect.isCreate ev = true) := by
  rw [duplicateFile] at h
  by_cases hex : vexists st (addSuffixBeforeExtension p suffix) = true
  · cases hgen : genNonExistingPath (vexists st) (addSuffixBeforeExtension p suffix)
        true fuel with
    | none =>
      simp only [conflictSolver, hex, if_true, hgen] at h
      cases h
    | some d2 =>
      simp only [conflictSolver, hex, if_true, hgen] at h
      cases hop : copyOp st p d2 with
      | none => rw [hop] at h; cases h
      | some r =>
        obtain ⟨st2, effs⟩ := r
        rw [hop] at h
        simp only [Option.some.injEq, Prod.mk.injEq] at h
        obtain ⟨hout, hc⟩ := h
        subst hout
        subst hc
        have hfree : vexists st d2 = false :=
          (genAux_spec (vexists st) (addSuffixBeforeExtension p suffix) true fuel
            (addSuffixBeforeExtension p suffix) 1 d2 hgen).1
        refine ⟨fun hf => ?_, fun _ => ⟨rfl, rfl⟩, ?_, ?_, ?_⟩
        · rw [hf] at hex; cases hex
        · exact copyOp_creates_dest st p d2 hfree st2 effs hop
        · exact copyOp_preserve st p d2 st2 effs hop
        · intro ev hev
          exact copyOp_trace_create st p d2 st2 effs hop ev (by simpa using hev)
  · have hex2 : vexists st (addSuffixBeforeExtension p suffix) = false := by
      simpa using hex
    simp only [conflictSolver, hex2, Bool.false_eq_true, if_false] at h
    cases hop : copyOp st p (addSuffixBeforeExtension p suffix) with
    | none => rw [hop] at h; cases h
    | some r =>
      obtain ⟨st2, effs⟩ := r
      rw [hop] at h
      simp only [Option.some.injEq, Prod.mk.injEq] at h
      obtain ⟨hout, hc⟩ := h
      subst hout
      subst hc
      refine ⟨fun _ => ⟨rfl, rfl⟩, fun ht => ?_, ?_, ?_, ?_⟩
      · rw [ht] at hex2; cases hex2
      · exact copyOp_creates_dest st p _ hex2 st2 effs hop
      · exact copyOp_preserve st p _ st2 effs hop
      · intro ev hev
        exact copyOp_trace_create st p _ st2 effs hop ev (by simpa using hev)

/-- Witness for C7: duplicating `home/f.md` with suffix " 1" when
`home/f 1.md` is already taken. -/
theorem C7_duplicateFile_keeps_witness :
    (vexists stDup (addSuffixBeforeExtension "home/f.md" " 1") = false →
      (SolverOut.mk (some Res.KEEP) true "home/f 1 1.md").finalDest =
        addSuffixBeforeExtension "home/f.md" " 1" ∧
      (SolverOut.mk (some Res.KEEP) true "home/f 1 1.md").res = none) ∧
    (vexists stDup (addSuffixBeforeExtension "home/f.md" " 1") = true →
      genNonExistingPath (vexists stDup) (addSuffixBeforeExtension "home/f.md" " 1")
          true 10 =
        some (SolverOut.mk (some Res.KEEP) true "home/f 1 1.md").finalDest ∧
      (SolverOut.mk (some Res.KEEP) true "home/f 1 1.md").res = some Res.KEEP) ∧
    vexists (Ctx.mk ⟨[("home/f 1 1.md", EKind.file), ("home", EKind.folder),
        ("home/f.md", EKind.file), ("home/f 1.md", EKind.file)]⟩ 0
        [Effect.copyFile "home/f.md" "home/f 1 1.md"]).st
      (SolverOut.mk (some Res.KEEP) true "home/f 1 1.md").finalDest = true ∧
    (∀ e, e ∈ stDup.entries →
      e ∈ (Ctx.mk ⟨[("home/f 1 1.md", EKind.file), ("home", EKind.folder),
        ("home/f.md", EKind.file), ("home/f 1.md", EKind.file)]⟩ 0
        [Effect.copyFile "home/f.md" "home/f 1 1.md"]).st.entries) ∧
    (∀ ev, ev ∈ (Ctx.mk ⟨[("home/f 1 1.md", EKind.file), ("home", EKind.folder),
        ("home/f.md", EKind.file), ("home/f 1.md", EKind.file)]⟩ 0
        [Effect.copyFile "home/f.md" "home/f 1 1.md"]).trace →
      Effect.isCreate ev = true) :=
  C7_duplicateFile_keeps stDup "home/f.md" " 1" orcKeepAll 10
    (SolverOut.mk (some Res.KEEP) true "home/f 1 1.md")
    (Ctx.mk ⟨[("home/f 1 1.md", EKind.file), ("home", EKind.folder),
      ("home/f.md", EKind.file), ("home/f 1.md", EKind.file)]⟩ 0
      [Effect.copyFile "home/f.md" "home/f 1 1.md"])
    EKind.file (by decide) (by decide)

theorem copyChildStep_skip (src d : String) (acc : VaultState × List Effect)
    (c : String × EKind)
    (hex : vexists acc.1 (d ++ stripPre src c.1) = true) :
    copyChildStep src d acc c = acc := by
  simp only [copyChildStep, hex, if_true]

theorem copyChildStep_create (src d : String) (acc : VaultState × List Effect)
    (c : String × EKind)
    (hex : vexists acc.1 (d ++ stripPre src c.1) = false) :
    copyChildStep src d acc c =
      (addEntry acc.1 (d ++ stripPre src c.1) c.2,
        acc.2 ++ [createEffectFor c (d ++ stripPre src c.1)]) := by
  cases hk2 : c.2 <;>
    simp only [copyChildStep, createEffectFor, hex, Bool.false_eq_true, if_false, hk2]

theorem copyChildStep_other (src d : String) (acc : VaultState × List Effect)
    (c : String × EKind) (t : String) (hne : d ++ stripPre src c.1 ≠ t) :
    kindOf ((copyChildStep src d acc c).1) t = kindOf acc.1 t ∧
    vexists ((copyChildStep src d acc c).1) t = vexists acc.1 t := by
  cases hex : vexists acc.1 (d ++ stripPre src c.1) with
  | true => rw [copyChildStep_skip src d acc c hex]; exact ⟨rfl, rfl⟩
  | false =>
    rw [copyChildStep_create src d acc c hex]
    exact ⟨kindOf_addEntry_ne _ _ _ _ hne, vexists_addEntry_ne _ _ _ _ hne⟩

theorem copyChildStep_traceShape (src d : String) (acc : VaultState × List Effect)
    (c : String × EKind) :
    (copyChildStep src d acc c).2 = acc.2 ∨
    ∃ ev, (copyChildStep src d acc c).2 = acc.2 ++ [ev] ∧
      Effect.target ev = d ++ stripPre src c.1 := by
  cases hex : vexists acc.1 (d ++ stripPre src c.1) with
  | true => rw [copyChildStep_skip src d acc c hex]; exact Or.inl rfl
  | false =>
    rw [copyChildStep_create src d acc c hex]
    refine Or.inr ⟨createEffectFor c (d ++ stripPre src c.1), rfl, ?_⟩
    cases hk2 : c.2 <;> simp [createEffectFor, hk2, Effect.target]

theorem copyFold_other (src d : String) :
    ∀ (cs : List (String × EKind)) (acc : VaultState × List Effect) (t : String),
      (∀ c ∈ cs, d ++ stripPre src c.1 ≠ t) →
      kindOf ((cs.foldl (copyChildStep src d) acc).1) t = kindOf acc.1 t ∧
      vexists ((cs.foldl (copyChildStep src d) acc).1) t = vexists acc.1 t := by
  intro cs
  induction cs with
  | nil => intro acc t _; exact ⟨rfl, rfl⟩
  | cons c rest ih =>
    intro acc t hall
    rw [List.foldl_cons]
    have hstep := copyChildStep_other src d acc c t (hall c (List.mem_cons_self _ _))
    have hrec := ih (copyChildStep src d acc c) t
      (fun c2 hc2 => hall c2 (List.mem_cons_of_mem _ hc2))
    exact ⟨hrec.1.trans hstep.1, hrec.2.trans hstep.2⟩

theorem copyFold_child_spec (src d : String) :
    ∀ (cs : List (String × EKind)) (acc : VaultState × List Effect)
      (ch : String × EKind), ch ∈ cs →
      ((cs.map (fun c => d ++ stripPre src c.1)).Nodup) →
      (vexists acc.1 (d ++ stripPre src ch.1) = false →
        kindOf ((cs.foldl (copyChildStep src d) acc).1) (d ++ stripPre src ch.1) =
          some ch.2 ∧
        createEffectFor ch (d ++ stripPre src ch.1) ∈
          (cs.foldl (copyChildStep src d) acc).2) ∧
      (vexists acc.1 (d ++ stripPre src ch.1) = true →
        kindOf ((cs.foldl (copyChildStep src d) acc).1) (d ++ stripPre src ch.1) =
          kindOf acc.1 (d ++ stripPre src ch.1) ∧
        ∀ ev ∈ (cs.foldl (copyChildStep src d) acc).2,
          Effect.target ev = d ++ stripPre src ch.1 → ev ∈ acc.2) := by
  intro cs
  induction cs with
  | nil => intro acc ch hch; cases hch
  | cons c rest ih =>
    intro acc ch hch hnd
    have hndtail : (rest.map (fun c => d ++ stripPre src c.1)).Nodup :=
      (List.nodup_cons.mp hnd).2
    have hheadout : d ++ stripPre src c.1 ∉
        rest.map (fun c => d ++ stripPre src c.1) := (List.nodup_cons.mp hnd).1
    rw [List.foldl_cons]
    rcases List.mem_cons.mp hch with rfl | hchtail
    · have hothers : ∀ c2 ∈ rest, d ++ stripPre src c2.1 ≠ d ++ stripPre src ch.1 := by
        intro c2 hc2 hceq
        exact hheadout (List.mem_map.mpr ⟨c2, hc2, hceq⟩)
      constructor
      · intro hex
        rw [copyChildStep_create src d acc ch hex]
        have hoth := copyFold_other src d rest
          (addEntry acc.1 (d ++ stripPre src ch.1) ch.2,
            acc.2 ++ [createEffectFor ch (d ++ stripPre src ch.1)])
          (d ++ stripPre src ch.1) hothers
        refine ⟨hoth.1.trans (kindOf_addEntry_self _ _ _), ?_⟩
        obtain ⟨extra, hext, -⟩ := copyFold_trace src d rest
          (addEntry acc.1 (d ++ stripPre src ch.1) ch.2,
            acc.2 ++ [createEffectFor ch (d ++ stripPre src ch.1)])
        rw [hext]
        exact List.mem_append_left _
          (List.mem_append_right _ (List.mem_singleton.mpr rfl))
      · intro hex
        rw [copyChildStep_skip src d acc ch hex]
        have hoth := copyFold_other src d rest acc (d ++ stripPre src ch.1) hothers
        refine ⟨hoth.1, ?_⟩
        intro ev hev htg
        obtain ⟨extra, hext, hall⟩ := copyFold_trace src d rest acc
        rw [hext] at hev
        rcases List.mem_append.mp hev with hin | hin
        · exact hin
        · obtain ⟨-, c2, hc2, htg2⟩ := hall ev hin
          exact absurd (htg2.symm.trans htg) (hothers c2 hc2)
    · have hheadne : d ++ stripPre src c.1 ≠ d ++ stripPre src ch.1 := by
        intro hceq
        exact hheadout (List.mem_map.mpr ⟨ch, hchtail, hceq.symm⟩)
      have hstep := copyChildStep_other src d acc c (d ++ stripPre src ch.1) hheadne
      have hrec := ih (copyChildStep src d acc c) ch hchtail hndtail
      constructor
      · intro hex
        have hex2 : vexists (copyChildStep src d acc c).1 (d ++ stripPre src ch.1) =
            false := hstep.2.trans hex
        exact hrec.1 hex2
      · intro hex
        have hex2 : vexists (copyChildStep src d acc c).1 (d ++ stripPre src ch.1) =
            true := hstep.2.trans hex
        obtain ⟨hkind, hevs⟩ := hrec.2 hex2
        refine ⟨hkind.trans hstep.1, ?_⟩
        intro ev hev htg
        have hin2 := hevs ev hev htg
        rcases copyChildStep_traceShape src d acc c with hsh | ⟨ev2, hsh, htg2⟩
        · rw [hsh] at hin2; exact hin2
        · rw [hsh] at hin2
          rcases List.mem_append.mp hin2 with hin3 | hin3
          · exact hin3
          · exfalso
            rcases List.mem_singleton.mp hin3 with rfl
            exact hheadne (htg2.symm.trans htg)

theorem copyOp_children_spec (st : VaultState) (src d : String)
    (hwf : VaultWf st) (hfolder : kindOf st src = some EKind.folder)
    (st2 : VaultState) (effs : List Effect)
    (hop : copyOp st src d = some (st2, effs)) :
    ∀ ch ∈ recurseChildren st src EKind.folder,
      (vexists st (d ++ stripPre src ch.1) = false →
        kindOf st2 (d ++ stripPre src ch.1) = some ch.2 ∧
        createEffectFor ch (d ++ stripPre src ch.1) ∈ effs) ∧
      (vexists st (d ++ stripPre src ch.1) = true →
        kindOf st2 (d ++ stripPre src ch.1) = kindOf st (d ++ stripPre src ch.1) ∧
        ∀ ev ∈ effs, Effect.target ev ≠ d ++ stripPre src ch.1) := by
  intro ch hch
  rcases copyOp_cases st src d st2 effs hop with ⟨hfile, -, -⟩ | ⟨-, hfold⟩
  · rw [hfolder] at hfile; cases hfile
  · have hst : st2 = (copyFolderOp st src d).1 := by rw [← hfold]
    have heffs : effs = (copyFolderOp st src d).2 := by rw [← hfold]
    subst hst
    subst heffs
    have hspec := copyFold_child_spec src d (recurseChildren st src EKind.folder)
      (st, []) ch hch (recurseChildren_targets_nodup st src d EKind.folder hwf)
    rw [copyFolderOp]
    constructor
    · intro hex
      exact (hspec.1 hex)
    · intro hex
      obtain ⟨hkind, hevs⟩ := hspec.2 hex
      refine ⟨hkind, ?_⟩
      intro ev hev htg
      have hin := hevs ev hev htg
      cases hin

theorem conflictSolver_noconf_out (oracle : Oracle) (op : OpFn) (src dest : String)
    (resolve : Option Res) (fuel : Nat) (st : VaultState) (out : SolverOut) (c : Ctx)
    (hex : vexists st dest = false)
    (h : conflictSolver oracle op src dest resolve fuel ⟨st, 0, []⟩ = some (out, c)) :
    ∃ (st2 : VaultState) (effs : List Effect),
      out = ⟨none, true, dest⟩ ∧ op st src dest = some (st2, effs) ∧
      c.st = st2 ∧ c.trace = effs := by
  simp only [conflictSolver, hex, Bool.false_eq_true, if_false] at h
  cases hop : op st src dest with
  | none => rw [hop] at h; cases h
  | some r =>
    obtain ⟨st2, effs⟩ := r
    rw [hop] at h
    simp only [Option.some.injEq, Prod.mk.injEq] at h
    obtain ⟨hout, hc⟩ := h
    subst hout
    subst hc
    exact ⟨st2, effs, rfl, rfl, rfl, rfl⟩

theorem conflictSolver_exists_keep (oracle : Oracle) (op : OpFn) (src dest : String)
    (resolve : Option Res) (fuel : Nat) (st : VaultState) (out : SolverOut) (c : Ctx)
    (hex : vexists st dest = true)
    (h : conflictSolver oracle op src dest resolve fuel ⟨st, 0, []⟩ = some (out, c))
    (hres : out.res = none ∨ out.res = some Res.KEEP) :
    ∃ (d2 : String) (st2 : VaultState) (effs pre : List Effect),
      out.res = some Res.KEEP ∧ out.finalDest = d2 ∧
      genNonExistingPath (vexists st) dest true fuel = some d2 ∧
      op st src d2 = some (st2, effs) ∧
      c.st = st2 ∧ c.trace = pre ++ effs ∧
      (∀ ev ∈ pre, Effect.isCreate ev = false) := by
  cases resolve with
  | some r =>
    cases r with
    | SKIP =>
      simp only [conflictSolver, hex, if_true] at h
      simp only [Option.some.injEq, Prod.mk.injEq] at h
      obtain ⟨hout, -⟩ := h
      rw [← hout] at hres
      rcases hres with hres | hres <;> cases hres
    | OVERWRITE =>
      simp only [conflictSolver, hex, if_true] at h
      cases hop : op (trash st dest) src dest with
      | none => rw [hop] at h; cases h
      | some r2 =>
        obtain ⟨st2, effs⟩ := r2
        rw [hop] at h
        simp only [Option.some.injEq, Prod.mk.injEq] at h
        obtain ⟨hout, -⟩ := h
        rw [← hout] at hres
        rcases hres with hres | hres <;> cases hres
    | KEEP =>
      cases hgen : genNonExistingPath (vexists st) dest true fuel with
      | none =>
        simp only [conflictSolver, hex, if_true, hgen] at h
        cases h
      | some d2 =>
        simp only [conflictSolver, hex, if_true, hgen] at h
        cases hop : op st src d2 with
        | none => rw [hop] at h; cases h
        | some r2 =>
          obtain ⟨st2, effs⟩ := r2
          rw [hop] at h
          simp only [Option.some.injEq, Prod.mk.injEq] at h
          obtain ⟨hout, hc⟩ := h
          subst hout
          subst hc
          exact ⟨d2, st2, effs, [], rfl, rfl, rfl, hop, rfl, rfl, by simp⟩
  | none =>
    rcases horc : oracle 0 with ⟨r, b⟩
    cases r with
    | SKIP =>
      simp only [conflictSolver, hex, if_true, horc] at h
      simp only [Option.some.injEq, Prod.mk.injEq] at h
      obtain ⟨hout, -⟩ := h
      rw [← hout] at hres
      rcases hres with hres | hres <;> cases hres
    | OVERWRITE =>
      simp only [conflictSolver, hex, if_true, horc] at h
      cases hop : op (trash st dest) src dest with
      | none => rw [hop] at h; cases h
      | some r2 =>
        obtain ⟨st2, effs⟩ := r2
        rw [hop] at h
        simp only [Option.some.injEq, Prod.mk.injEq] at h
        obtain ⟨hout, -⟩ := h
        rw [← hout] at hres
        rcases hres with hres | hres <;> cases hres
    | KEEP =>
      cases hgen : genNonExistingPath (vexists st) dest true fuel with
      | none =>
        simp only [conflictSolver, hex, if_true, horc, hgen] at h
        cases h
      | some d2 =>
        simp only [conflictSolver, hex, if_true, horc, hgen] at h
        cases hop : op st src d2 with
        | none => rw [hop] at h; cases h
        | some r2 =>
          obtain ⟨st2, effs⟩ := r2
          rw [hop] at h
          simp only [Option.some.injEq, Prod.mk.injEq] at h
          obtain ⟨hout, hc⟩ := h
          subst hout
          subst hc
          refine ⟨d2, st2, effs, [Effect.prompt dest], rfl, rfl, rfl, hop, rfl, rfl, ?_⟩
          intro ev hev
          rcases List.mem_singleton.mp hev with rfl
          rfl

/-- C2 counterexample: the batch copies folder `a` (containing `a/x.md`)
to intended destination `dst/a`, which exists, with resolution Keep.  The
claim predicts the child is created at the original-destination-based
path `dst/a/x.md` (no entry exists there), but the code creates nothing
there: the child lands under the disambiguated destination
`dst/a 1/x.md`. -/
theorem C2_counterexample :
    vexists stC2 "dst/a/x.md" = false ∧
    ((copyFiles true "dst" [("a", "a")] (some Res.KEEP) stC2 orcKeepAll 10).map
      (fun r => (mapGet r.1 "dst/a", vexists r.2.st "dst/a/x.md",
        vexists r.2.st "dst/a 1/x.md", vexists r.2.st "dst/a 1"))) =
      some (some (some Res.KEEP), false, true, true) := by
  decide

/-- C2 (amended): when `_copyFileOrFolder` processes a folder entry and
the conflict solver proceeds (no conflict, or Keep), every descendant of
the source folder — the folder itself included — is laid out at the path
obtained by appending the descendant's path relative to the source root
to the *actual final destination* returned by the solver (the intended
destination when no conflict, its Keep disambiguation otherwise, never
the pre-Keep path when they differ), and each such child is created
(file copy for files, createFolder for folders) exactly when no entry
already existed at that child path. -/
theorem C2_copy_children_final_dest (st : VaultState) (oracle : Oracle)
    (src dest : String) (resolve : Option Res) (fuel : Nat)
    (out : SolverOut) (c : Ctx)
    (hwf : VaultWf st) (hk : kindOf st src = some EKind.folder)
    (h : conflictSolver oracle copyOp src dest resolve fuel ⟨st, 0, []⟩ =
      some (out, c))
    (hres : out.res = none ∨ out.res = some Res.KEEP) :
    (out.res = none → out.finalDest = dest) ∧
    vexists st out.finalDest = false ∧
    (∀ ch ∈ recurseChildren st src EKind.folder,
      (vexists st (out.finalDest ++ stripPre src ch.1) = false →
        kindOf c.st (out.finalDest ++ stripPre src ch.1) = some ch.2 ∧
        createEffectFor ch (out.finalDest ++ stripPre src ch.1) ∈ c.trace) ∧
      (vexists st (out.finalDest ++ stripPre src ch.1) = true →
        kindOf c.st (out.finalDest ++ stripPre src ch.1) =
          kindOf st (out.finalDest ++ stripPre src ch.1) ∧
        ∀ ev ∈ c.trace, Effect.isCreate ev = true →
          Effect.target ev ≠ out.finalDest ++ stripPre src ch.1)) := by
  by_cases hex : vexists st dest = true
  · obtain ⟨d2, st2, effs, pre, hkeep, hfd, hgen, hop, hcst, htr, hpre⟩ :=
      conflictSolver_exists_keep oracle copyOp src dest resolve fuel st out c hex h hres
    have hfree : vexists st d2 = false :=
      (genAux_spec (vexists st) dest true fuel dest 1 d2 hgen).1
    have hspec := copyOp_children_spec st src d2 hwf hk st2 effs hop
    refine ⟨?_, ?_, ?_⟩
    · intro hn
      rw [hn] at hkeep
      cases hkeep
    · rw [hfd]
      exact hfree
    intro ch hch
    rw [hfd, hcst, htr]
    obtain ⟨hcreate, hskip⟩ := hspec ch hch
    constructor
    · intro hex2
      obtain ⟨hkind, hmem⟩ := hcreate hex2
      exact ⟨hkind, List.mem_append_right _ hmem⟩
    · intro hex2
      obtain ⟨hkind, hevs⟩ := hskip hex2
      refine ⟨hkind, ?_⟩
      intro ev hev hcr htg
      rcases List.mem_append.mp hev with hin | hin
      · rw [hpre ev hin] at hcr; cases hcr
      · exact hevs ev hin htg
  · have hex2 : vexists st dest = false := by
      cases hvb : vexists st dest
      · rfl
      · exact absurd hvb hex
    obtain ⟨st2, effs, hout, hop, hcst, htr⟩ :=
      conflictSolver_noconf_out oracle copyOp src dest resolve fuel st out c hex2 h
    have hspec := copyOp_children_spec st src dest hwf hk st2 effs hop
    subst hout
    refine ⟨fun _ => rfl, hex2, ?_⟩
    intro ch hch
    rw [hcst, htr]
    obtain ⟨hcreate, hskip⟩ := hspec ch hch
    constructor
    · intro hex3
      exact hcreate hex3
    · intro hex3
      obtain ⟨hkind, hevs⟩ := hskip hex3
      exact ⟨hkind, fun ev hev _ => hevs ev hev⟩

/-- Witness for C2 (amended) at the concrete Keep scenario: copying
folder `a` to the occupied destination `dst/a` under Keep. -/
theorem C2_copy_children_final_dest_witness :
    (outC2.res = none → outC2.finalDest = "dst/a") ∧
    vexists stC2 outC2.finalDest = false ∧
    (∀ ch ∈ recurseChildren stC2 "a" EKind.folder,
      (vexists stC2 (outC2.finalDest ++ stripPre "a" ch.1) = false →
        kindOf ctxC2.st (outC2.finalDest ++ stripPre "a" ch.1) = some ch.2 ∧
        createEffectFor ch (outC2.finalDest ++ stripPre "a" ch.1) ∈ ctxC2.trace) ∧
      (vexists stC2 (outC2.finalDest ++ stripPre "a" ch.1) = true →
        kindOf ctxC2.st (outC2.finalDest ++ stripPre "a" ch.1) =
          kindOf stC2 (outC2.finalDest ++ stripPre "a" ch.1) ∧
        ∀ ev ∈ ctxC2.trace, Effect.isCreate ev = true →
          Effect.target ev ≠ outC2.finalDest ++ stripPre "a" ch.1)) :=
  C2_copy_children_final_dest stC2 orcKeepAll "a" "dst/a" (some Res.KEEP) 10 outC2
    ctxC2 (by show (stC2.entries.map Prod.fst).Nodup; decide) (by decide) (by decide)
    (Or.inr rfl)

/-- C1 (evaluation of the code at a failing input): in the batch
`[s1 → dst/n (collides), s2 → dst/m (free), s3 → dst/n2 (collides)]`
the first collision is answered `(KEEP, applyToAll = true)`, yet the
intervening conflict-free item makes the loop store
`resolve = resolution = null` again, so the batch consults the
resolution source a second time for `dst/n2` — which answers SKIP — in
contradiction with "every subsequent colliding destination is resolved
with that same resolution without prompting or consulting the policy
again". -/
theorem C1_applyToAll_reset_reprompts :
    vexists stBatchC1 "dst/n" = true ∧
    vexists stBatchC1 "dst/m" = false ∧
    vexists stBatchC1 "dst/n2" = true ∧
    orcBatchC1 0 = (Res.KEEP, true) ∧
    ((moveFiles true "dst" [("s1", "n"), ("s2", "m"), ("s3", "n2")] none
        stBatchC1 orcBatchC1 10).map
      (fun r => (mapGet r.1 "dst/n", mapGet r.1 "dst/n2", r.2.promptCount))) =
      some (some (some Res.KEEP), some (some Res.SKIP), 2) := by
  decide

end FileMgrSpec
